import Mathlib

/-!
Shallow embedding of RLLib's `Vector.h` (dense and sparse numeric vectors)
and the `SparseVectors` collection.

Modelling conventions:
* The C++ numeric template parameter `T` (and the `double` scalars) are
  modelled by the integers `ℤ` (exact arithmetic; every claim-relevant
  behaviour depends only on ring operations and zero tests, and integer
  values are exactly representable in `double`).
* The growable C++ arrays `activeIndexes` / `values` are modelled as lists
  holding exactly the first `nbActive` slots: the code never reads a slot at
  position `≥ nbActive`, and `allocate` only grows unread slack, so slack has
  no logical effect.  `nbActive` is the common length of the two lists;
  `nbActive--` together with the preceding swap is `List.dropLast`.
* `indexesPosition` keeps the C++ sentinel `-1` and is a `List Int` of length
  `indexesPositionLength` (the declared dimension).
* A file is modelled as a record of the values `persist` writes and
  `resurrect` reads.  `resurrect` returns `Except`: `exitCalled` models the
  `exit(-1)` taken when the file cannot be opened, `assertFailed` models a
  failing C `assert`.
* Pointers (for the `SparseVectors` collection, which stores
  `SparseVector<T>*`) are modelled as indices into an explicit heap, a list
  of `SparseVector` cells.
-/

namespace RLLib

/-- State of a `SparseVector<T>`: `indexesPosition` maps a global index to its
position in the active arrays or `-1`; `activeIndexes`/`values` are the
parallel active arrays, holding exactly the `nbActive` live slots. -/
structure SparseVector where
  indexesPosition : List Int
  activeIndexes : List Nat
  values : List ℤ
  deriving Repr, DecidableEq

namespace SparseVector

/-- `dimension()` returns `indexesPositionLength`. -/
def dimension (s : SparseVector) : Nat := s.indexesPosition.length

/-- `nbActive` (the live length of the active arrays). -/
def nbActive (s : SparseVector) : Nat := s.activeIndexes.length

/-- The constructor `SparseVector(capacity, activeIndexesLength)`:
`indexesPosition` is filled with `-1`, no active entries. -/
def mkEmpty (capacity : Nat) : SparseVector :=
  ⟨List.replicate capacity (-1), [], []⟩

/-- `getEntry(index)`: `position = indexesPosition[index]`, then
`position != -1 ? values[position] : T(0)`. -/
def getEntry (s : SparseVector) (index : Nat) : ℤ :=
  let position := s.indexesPosition.getD index (-1)
  if position ≠ -1 then s.values.getD position.toNat 0 else 0

/-- Private `updateEntry(index, value, position)`: `values[position] = value`. -/
def updateEntry (s : SparseVector) (value : ℤ) (position : Nat) : SparseVector :=
  { s with values := s.values.set position value }

/-- Private `swapEntry(positionA, positionB)`. -/
def swapEntry (s : SparseVector) (positionA positionB : Nat) : SparseVector :=
  let indexA := s.activeIndexes.getD positionA 0
  let valueA := s.values.getD positionA 0
  let indexB := s.activeIndexes.getD positionB 0
  let valueB := s.values.getD positionB 0
  { s with
    indexesPosition :=
      (s.indexesPosition.set indexA (positionB : Int)).set indexB (positionA : Int)
    activeIndexes := (s.activeIndexes.set positionA indexB).set positionB indexA
    values := (s.values.set positionA valueB).set positionB valueA }

/-- Private `removeEntry(position, index)`: swap with the last live slot, mark
the index now sitting in the last slot absent, and `nbActive--`. -/
def removeEntryAt (s : SparseVector) (position : Nat) : SparseVector :=
  let s1 := s.swapEntry (s.nbActive - 1) position
  { s1 with
    indexesPosition :=
      s1.indexesPosition.set (s1.activeIndexes.getD (s1.nbActive - 1) 0) (-1)
    activeIndexes := s1.activeIndexes.dropLast
    values := s1.values.dropLast }

/-- Public `removeEntry(index)`. -/
def removeEntry (s : SparseVector) (index : Nat) : SparseVector :=
  let position := s.indexesPosition.getD index (-1)
  if position ≠ -1 then s.removeEntryAt position.toNat else s

/-- Private `appendEntry(index, value)` (the `allocate` call only grows unread
slack, so it is not represented). -/
def appendEntry (s : SparseVector) (index : Nat) (value : ℤ) : SparseVector :=
  { s with
    activeIndexes := s.activeIndexes ++ [index]
    values := s.values ++ [value]
    indexesPosition := s.indexesPosition.set index (s.nbActive : Int) }

/-- `insertEntry(index, value)` forwards to `appendEntry`. -/
def insertEntry (s : SparseVector) (index : Nat) (value : ℤ) : SparseVector :=
  s.appendEntry index value

/-- Private `setNonZeroEntry(index, value)`: update in place when the index is
active, otherwise insert.  Note that it stores `value` unconditionally, even
when `value = 0`. -/
def setNonZeroEntry (s : SparseVector) (index : Nat) (value : ℤ) : SparseVector :=
  let position := s.indexesPosition.getD index (-1)
  if position ≠ -1 then s.updateEntry value position.toNat
  else s.insertEntry index value

/-- `setEntry(index, value)`: remove on zero, otherwise `setNonZeroEntry`. -/
def setEntry (s : SparseVector) (index : Nat) (value : ℤ) : SparseVector :=
  if value = 0 then s.removeEntry index else s.setNonZeroEntry index value

/-- `addToSelf(factor, that)`: for each active position of `that`,
`setNonZeroEntry(index, getEntry(index) + factor * that.values[position])`. -/
def addToSelf (s : SparseVector) (factor : ℤ) (that : SparseVector) : SparseVector :=
  (List.range that.nbActive).foldl
    (fun acc position =>
      let index := that.activeIndexes.getD position 0
      acc.setNonZeroEntry index
        (acc.getEntry index + factor * that.values.getD position 0)) s

/-- `ebeAddConstantToSelf(value)`: for every index below the declared
dimension, `setNonZeroEntry(index, value + getEntry(index))`. -/
def ebeAddConstantToSelf (s : SparseVector) (value : ℤ) : SparseVector :=
  (List.range s.dimension).foldl
    (fun acc index => acc.setNonZeroEntry index (value + acc.getEntry index)) s

/-- The `while (position < nbActive)` loop of `ebeMultiplyToSelf`: multiply the
value at `position` by `that.getEntry(index)`; keep it and advance on a
non-zero result, otherwise swap-remove the slot and revisit it. -/
def ebeMultiplyToSelfAux (that : SparseVector) (s : SparseVector) (position : Nat) :
    SparseVector :=
  if h : position < s.nbActive then
    if s.values.getD position 0 * that.getEntry (s.activeIndexes.getD position 0) ≠ 0 then
      ebeMultiplyToSelfAux that
        (s.updateEntry
          (s.values.getD position 0 * that.getEntry (s.activeIndexes.getD position 0))
          position)
        (position + 1)
    else
      ebeMultiplyToSelfAux that (s.removeEntryAt position) position
  else s
termination_by s.nbActive - position
decreasing_by
  · simp only [nbActive, updateEntry, List.length_set] at *
    omega
  · simp only [nbActive, removeEntryAt, swapEntry, List.length_dropLast,
      List.length_set] at *
    omega

/-- `ebeMultiplyToSelf(that)`. -/
def ebeMultiplyToSelf (s : SparseVector) (that : SparseVector) : SparseVector :=
  ebeMultiplyToSelfAux that s 0

/-- The private two-argument `dot`: iterate the active slots of `_this`,
accumulating `_that.getEntry(_this.activeIndexes[position]) * _this.values[position]`. -/
def dotAux (t1 t2 : SparseVector) : ℤ :=
  (List.range t1.nbActive).foldl
    (fun tmp position =>
      tmp + t2.getEntry (t1.activeIndexes.getD position 0) * t1.values.getD position 0) 0

/-- Public `dot(that)`: iterate over whichever operand has fewer active
entries. -/
def dot (s : SparseVector) (that : SparseVector) : ℤ :=
  if s.nbActive < that.nbActive then dotAux s that else dotAux that s

end SparseVector

/-- Outcome of a failed `resurrect`: `exitCalled` is the `exit(-1)` on an
unopenable file; `assertFailed` is a failing C `assert`. -/
inductive ResurrectError where
  | exitCalled
  | assertFailed
  deriving Repr, DecidableEq

/-- The data a sparse `persist` writes / a sparse `resurrect` reads:
a leading tag, the declared dimension, the active count, then the active
indexes and the active values. -/
structure SparseFile where
  vectorType : Int
  rcapacity : Nat
  rnbActive : Nat
  ractiveIndexes : List Nat
  rvalues : List ℤ
  deriving Repr, DecidableEq

namespace SparseVector

/-- `SparseVector::persist`: writes tag `1`, `indexesPositionLength`,
`nbActive`, the first `nbActive` active indexes and values. -/
def persist (s : SparseVector) : SparseFile :=
  ⟨1, s.dimension, s.nbActive, s.activeIndexes,
    (List.range s.nbActive).map (fun position => s.values.getD position 0)⟩

/-- `SparseVector::resurrect`: `exit(-1)` when the file cannot be opened;
`assert(vectorType == 1)`; `assert(indexesPositionLength == rcapacity)`; then
`insertEntry` each stored pair on top of the current state (no `clear()`). -/
def resurrect (s : SparseVector) (file : Option SparseFile) :
    Except ResurrectError SparseVector :=
  match file with
  | none => .error .exitCalled
  | some f =>
    if f.vectorType ≠ 1 then .error .assertFailed
    else if s.dimension ≠ f.rcapacity then .error .assertFailed
    else .ok ((List.range f.rnbActive).foldl
        (fun acc position =>
          acc.insertEntry (f.ractiveIndexes.getD position 0)
            (f.rvalues.getD position 0)) s)

end SparseVector

/-- State of a `DenseVector<T>`: `capacity` is the length of `data`. -/
structure DenseVector where
  data : List ℤ
  deriving Repr, DecidableEq

namespace DenseVector

/-- `capacity` / `dimension()`. -/
def capacity (d : DenseVector) : Nat := d.data.length

/-- The data a dense `persist` writes / a dense `resurrect` reads. -/
structure File where
  vectorType : Int
  rcapacity : Nat
  rdata : List ℤ
  deriving Repr, DecidableEq

/-- `DenseVector::persist`: tag `0`, the capacity, then the cells. -/
def persist (d : DenseVector) : File := ⟨0, d.capacity, d.data⟩

/-- `DenseVector::resurrect`: `exit(-1)` when the file cannot be opened;
`assert(vectorType == 0)`; `assert(capacity == rcapacity)`; then read
`capacity` cells. -/
def resurrect (d : DenseVector) (file : Option File) :
    Except ResurrectError DenseVector :=
  match file with
  | none => .error .exitCalled
  | some f =>
    if f.vectorType ≠ 0 then .error .assertFailed
    else if d.capacity ≠ f.rcapacity then .error .assertFailed
    else .ok ⟨(List.range d.capacity).map (fun j => f.rdata.getD j 0)⟩

end DenseVector

/-- A heap of `SparseVector` objects; a `SparseVector<T>*` is an index into
the heap. -/
abbrev Heap := List SparseVector

/-- The all-empty vector used as the junk value behind a dangling pointer. -/
def nullSparse : SparseVector := ⟨[], [], []⟩

/-- `SparseVector`'s copy constructor: allocates fresh arrays and copies
`indexesPosition` in full and the first `nbActive` slots of the active
arrays — on the heap, a new cell holding the same logical state. -/
def copyConstructSparse (h : Heap) (src : Nat) : Heap × Nat :=
  (h ++ [h.getD src nullSparse], h.length)

/-- `setEntry` performed through a pointer. -/
def setEntryOnHeap (h : Heap) (ptr : Nat) (index : Nat) (value : ℤ) : Heap :=
  h.set ptr ((h.getD ptr nullSparse).setEntry index value)

/-- State of a `SparseVectors<T>` collection: a vector of pointers. -/
structure SparseVectors where
  vectors : List Nat
  deriving Repr, DecidableEq

namespace SparseVectors

/-- `SparseVectors`' copy constructor: `push_back(*iter)` for each member of
`that` — it copies the member *pointers*, not the pointed-to vectors. -/
def copyConstruct (that : SparseVectors) : SparseVectors :=
  ⟨that.vectors.foldl (fun acc ptr => acc ++ [ptr]) []⟩

/-- `at(index)`: the stored pointer. -/
def getAt (c : SparseVectors) (index : Nat) : Nat := c.vectors.getD index 0

end SparseVectors

/-- Well-formedness of a sparse vector, as established by the constructor and
maintained by the public interface: the active arrays have equal (live)
length; every live slot holds an in-range index whose recorded position is
that slot; and every index whose recorded position is not `-1` is the index
of some live slot recording it. -/
def WF (s : SparseVector) : Prop :=
  s.values.length = s.activeIndexes.length ∧
  (∀ i, i < s.nbActive →
      s.activeIndexes.getD i 0 < s.dimension ∧
      s.indexesPosition.getD (s.activeIndexes.getD i 0) (-1) = (i : Int)) ∧
  (∀ k, k < s.dimension → s.indexesPosition.getD k (-1) ≠ -1 →
      ∃ i, i < s.nbActive ∧ s.indexesPosition.getD k (-1) = (i : Int) ∧
        s.activeIndexes.getD i 0 = k)

/-- No live slot of the active arrays stores an explicit zero value. -/
def NoZeros (s : SparseVector) : Prop :=
  ∀ i, i < s.nbActive → s.values.getD i 0 ≠ 0

instance (s : SparseVector) : Decidable (WF s) := by
  unfold WF; infer_instance

instance (s : SparseVector) : Decidable (NoZeros s) := by
  unfold NoZeros; infer_instance

/-! ### List-level helper lemmas -/

theorem getD_set_self {α : Type} (l : List α) (i : Nat) (a d : α) (h : i < l.length) :
    (l.set i a).getD i d = a := by
  have h1 : i < (l.set i a).length := by simpa using h
  rw [List.getD_eq_getElem _ _ h1, List.getElem_set_self]

theorem getD_set_ne {α : Type} (l : List α) {i j : Nat} (a d : α) (h : i ≠ j) :
    (l.set i a).getD j d = l.getD j d := by
  by_cases hj : j < l.length
  · rw [List.getD_eq_getElem _ _ (by simpa using hj), List.getD_eq_getElem _ _ hj,
      List.getElem_set_ne h]
  · rw [List.getD_eq_default _ _ (by simpa using Nat.le_of_not_lt hj),
      List.getD_eq_default _ _ (Nat.le_of_not_lt hj)]

theorem getD_dropLast {α : Type} (l : List α) (i : Nat) (d : α) (h : i < l.length - 1) :
    l.dropLast.getD i d = l.getD i d := by
  have h1 : i < l.dropLast.length := by simp only [List.length_dropLast]; omega
  have h2 : i < l.length := by omega
  rw [List.getD_eq_getElem _ _ h1, List.getD_eq_getElem _ _ h2, List.getElem_dropLast]

theorem dropLast_set_last {α : Type} (l : List α) (a : α) :
    (l.set (l.length - 1) a).dropLast = l.dropLast := by
  apply List.ext_getElem
  · simp
  · intro i h1 h2
    simp only [List.length_dropLast, List.length_set] at h1 h2
    rw [List.getElem_dropLast, List.getElem_dropLast, List.getElem_set_ne (by omega)]

theorem getD_replicate_self {α : Type} (c k : Nat) (a : α) :
    (List.replicate c a).getD k a = a := by
  by_cases h : k < c
  · rw [List.getD_eq_getElem _ _ (by simpa using h), List.getElem_replicate]
  · rw [List.getD_eq_default _ _ (by simpa using Nat.le_of_not_lt h)]

theorem range_map_getD {α : Type} (l : List α) (d : α) :
    (List.range l.length).map (fun i => l.getD i d) = l := by
  apply List.ext_getElem
  · simp
  · intro i h1 h2
    simp only [List.getElem_map, List.getElem_range]
    rw [List.getD_eq_getElem _ _ h2]

/-! ### Effect of the private `removeEntry(position, index)` -/

/-- After swapping the slot `p` with the last slot, the last slot holds what
slot `p` held. -/
theorem set_last_set_getD {α : Type} (a : List α) (p : Nat) (d : α) (hp : p < a.length) :
    ((a.set (a.length - 1) (a.getD p d)).set p (a.getD (a.length - 1) d)).getD
      (a.length - 1) d = a.getD p d := by
  by_cases hpe : p = a.length - 1
  · rw [← hpe, List.set_set, getD_set_self _ _ _ _ hp]
  · rw [@getD_set_ne α (a.set (a.length - 1) (a.getD p d)) p (a.length - 1)
      (a.getD (a.length - 1) d) d hpe,
      getD_set_self _ _ _ _ (show a.length - 1 < a.length by omega)]

/-- Writing into the last slot is invisible after `dropLast`. -/
theorem set_last_set_dropLast {α : Type} (a : List α) (p : Nat) (x y : α)
    (hp : p < a.length) :
    ((a.set (a.length - 1) x).set p y).dropLast = (a.set p y).dropLast := by
  by_cases hpe : p = a.length - 1
  · subst hpe
    rw [List.set_set]
  · rw [List.set_comm _ _ _ (fun h => hpe h.symm),
      show a.length - 1 = (a.set p y).length - 1 from by simp, dropLast_set_last]

namespace SparseVector

/-- The removed slot receives the last live pair, the last live slot is cut
off, the moved index is re-pointed at `position`, and the removed index is
marked absent. -/
theorem removeEntryAt_eq (s : SparseVector) (p : Nat)
    (hlen : s.values.length = s.activeIndexes.length) (hp : p < s.nbActive) :
    s.removeEntryAt p =
      ⟨(s.indexesPosition.set (s.activeIndexes.getD (s.nbActive - 1) 0) (p : Int)).set
          (s.activeIndexes.getD p 0) (-1),
        (s.activeIndexes.set p (s.activeIndexes.getD (s.nbActive - 1) 0)).dropLast,
        (s.values.set p (s.values.getD (s.nbActive - 1) 0)).dropLast⟩ := by
  have hpa : p < s.activeIndexes.length := hp
  have hpv : p < s.values.length := by rw [hlen]; exact hp
  unfold removeEntryAt swapEntry
  simp only [nbActive, List.length_set]
  refine SparseVector.mk.injEq .. ▸ ⟨?_, ?_, ?_⟩
  · rw [set_last_set_getD _ _ _ hpa, List.set_set]
  · exact set_last_set_dropLast _ _ _ _ hpa
  · rw [show s.activeIndexes.length = s.values.length from hlen.symm]
    exact set_last_set_dropLast _ _ _ _ hpv

end SparseVector

/-! ### Consequences of well-formedness -/

theorem WF.length_values {s : SparseVector} (h : WF s) :
    s.values.length = s.activeIndexes.length := h.1

theorem WF.index_lt_dim {s : SparseVector} (h : WF s) {i : Nat} (hi : i < s.nbActive) :
    s.activeIndexes.getD i 0 < s.dimension := (h.2.1 i hi).1

theorem WF.pos_of_slot {s : SparseVector} (h : WF s) {i : Nat} (hi : i < s.nbActive) :
    s.indexesPosition.getD (s.activeIndexes.getD i 0) (-1) = (i : Int) := (h.2.1 i hi).2

theorem WF.slot_of_pos {s : SparseVector} (h : WF s) {k : Nat} (hk : k < s.dimension)
    (ha : s.indexesPosition.getD k (-1) ≠ -1) :
    ∃ i, i < s.nbActive ∧ s.indexesPosition.getD k (-1) = (i : Int) ∧
      s.activeIndexes.getD i 0 = k := h.2.2 k hk ha

/-- Distinct live slots hold distinct indexes. -/
theorem WF.slot_inj {s : SparseVector} (h : WF s) {i j : Nat} (hi : i < s.nbActive)
    (hj : j < s.nbActive) (he : s.activeIndexes.getD i 0 = s.activeIndexes.getD j 0) :
    i = j := by
  have h1 := h.pos_of_slot hi
  have h2 := h.pos_of_slot hj
  rw [he, h2] at h1
  omega

namespace SparseVector

/-- On a well-formed state, `getEntry` at the index held in live slot `i`
returns the value held in slot `i`. -/
theorem getEntry_slot {s : SparseVector} (h : WF s) {i : Nat} (hi : i < s.nbActive) :
    s.getEntry (s.activeIndexes.getD i 0) = s.values.getD i 0 := by
  unfold getEntry
  rw [h.pos_of_slot hi]
  simp only [ne_eq]
  rw [if_pos (by omega), Int.toNat_natCast]

/-- On a well-formed state, an absent index reads as zero. -/
theorem getEntry_absent {s : SparseVector} {k : Nat}
    (ha : s.indexesPosition.getD k (-1) = -1) : s.getEntry k = 0 := by
  unfold getEntry
  simp only [ha, ne_eq, not_true_eq_false, if_false]

/-- The three components of `removeEntryAt`, separately. -/
theorem removeEntryAt_ip {s : SparseVector} (hlen : s.values.length = s.activeIndexes.length)
    {p : Nat} (hp : p < s.nbActive) :
    (s.removeEntryAt p).indexesPosition =
      (s.indexesPosition.set (s.activeIndexes.getD (s.nbActive - 1) 0) (p : Int)).set
        (s.activeIndexes.getD p 0) (-1) := by
  rw [removeEntryAt_eq s p hlen hp]

theorem removeEntryAt_ai {s : SparseVector} (hlen : s.values.length = s.activeIndexes.length)
    {p : Nat} (hp : p < s.nbActive) :
    (s.removeEntryAt p).activeIndexes =
      (s.activeIndexes.set p (s.activeIndexes.getD (s.nbActive - 1) 0)).dropLast := by
  rw [removeEntryAt_eq s p hlen hp]

theorem removeEntryAt_vals {s : SparseVector} (hlen : s.values.length = s.activeIndexes.length)
    {p : Nat} (hp : p < s.nbActive) :
    (s.removeEntryAt p).values =
      (s.values.set p (s.values.getD (s.nbActive - 1) 0)).dropLast := by
  rw [removeEntryAt_eq s p hlen hp]

theorem removeEntryAt_nbActive {s : SparseVector} (h : WF s) {p : Nat}
    (hp : p < s.nbActive) : (s.removeEntryAt p).nbActive = s.nbActive - 1 := by
  simp [nbActive, removeEntryAt_ai h.length_values hp]

theorem removeEntryAt_dimension {s : SparseVector} (h : WF s) {p : Nat}
    (hp : p < s.nbActive) : (s.removeEntryAt p).dimension = s.dimension := by
  simp [dimension, removeEntryAt_ip h.length_values hp]

/-- The removed index is marked absent. -/
theorem removeEntryAt_ip_self {s : SparseVector} (h : WF s) {p : Nat}
    (hp : p < s.nbActive) :
    (s.removeEntryAt p).indexesPosition.getD (s.activeIndexes.getD p 0) (-1) = -1 := by
  rw [removeEntryAt_ip h.length_values hp]
  exact getD_set_self _ _ _ _ (by simpa using h.index_lt_dim hp)

/-- A live slot of the result, below the new live count, read through the
component form: slot `p` now holds the old last index, other slots are
unchanged. -/
theorem removeEntryAt_ai_getD {s : SparseVector}
    (hlen : s.values.length = s.activeIndexes.length) {p i : Nat} (hp : p < s.nbActive)
    (hi : i < s.nbActive - 1) :
    (s.removeEntryAt p).activeIndexes.getD i 0 =
      if i = p then s.activeIndexes.getD (s.nbActive - 1) 0 else s.activeIndexes.getD i 0 := by
  rw [removeEntryAt_ai hlen hp, getD_dropLast _ _ _ (by simp only [List.length_set]; exact hi)]
  by_cases hip : i = p
  · subst hip
    rw [if_pos rfl, getD_set_self _ _ _ _ hp]
  · rw [if_neg hip, getD_set_ne _ _ _ (fun he => hip he.symm)]

theorem removeEntryAt_vals_getD {s : SparseVector}
    (hlen : s.values.length = s.activeIndexes.length) {p i : Nat} (hp : p < s.nbActive)
    (hi : i < s.nbActive - 1) :
    (s.removeEntryAt p).values.getD i 0 =
      if i = p then s.values.getD (s.nbActive - 1) 0 else s.values.getD i 0 := by
  rw [removeEntryAt_vals hlen hp,
    getD_dropLast _ _ _ (by simp only [List.length_set, hlen]; exact hi)]
  by_cases hip : i = p
  · subst hip
    rw [if_pos rfl, getD_set_self _ _ _ _ (by rw [hlen]; exact hp)]
  · rw [if_neg hip, getD_set_ne _ _ _ (fun he => hip he.symm)]

/-- Removing a live slot preserves well-formedness. -/
theorem removeEntryAt_wf {s : SparseVector} (h : WF s) {p : Nat}
    (hp : p < s.nbActive) : WF (s.removeEntryAt p) := by
  obtain ⟨hlen, h2, h3⟩ := h
  have hWF : WF s := ⟨hlen, h2, h3⟩
  have hn1 : s.nbActive - 1 < s.nbActive := by omega
  have hkdim := (h2 p hp).1
  have hldim := (h2 (s.nbActive - 1) hn1).1
  have haInj : ∀ i j, i < s.nbActive → j < s.nbActive →
      s.activeIndexes.getD i 0 = s.activeIndexes.getD j 0 → i = j := by
    intro i j hi hj he
    have e1 := (h2 i hi).2
    have e2 := (h2 j hj).2
    rw [he, e2] at e1
    omega
  have hnb := removeEntryAt_nbActive hWF hp
  have hdim := removeEntryAt_dimension hWF hp
  refine ⟨?_, ?_, ?_⟩
  · rw [removeEntryAt_vals hlen hp, removeEntryAt_ai hlen hp]
    simp [hlen]
  · -- every live slot of the result records its own position
    intro i hi
    rw [hnb] at hi
    rw [removeEntryAt_ai_getD hlen hp hi, removeEntryAt_ip hlen hp, hdim]
    by_cases hip : i = p
    · subst hip
      rw [if_pos rfl]
      have hlk : s.activeIndexes.getD (s.nbActive - 1) 0 ≠ s.activeIndexes.getD i 0 := by
        intro he
        have := haInj _ _ hn1 hp he
        omega
      refine ⟨hldim, ?_⟩
      rw [getD_set_ne _ _ _ (fun he => hlk he.symm),
        getD_set_self _ _ _ _ (by simpa [dimension] using hldim)]
    · rw [if_neg hip]
      have hin : i < s.nbActive := by omega
      have hidim := (h2 i hin).1
      have hik : s.activeIndexes.getD i 0 ≠ s.activeIndexes.getD p 0 := by
        intro he; exact hip (haInj _ _ hin hp he)
      have hil : s.activeIndexes.getD i 0 ≠ s.activeIndexes.getD (s.nbActive - 1) 0 := by
        intro he
        have := haInj _ _ hin hn1 he
        omega
      refine ⟨hidim, ?_⟩
      rw [getD_set_ne _ _ _ (fun he => hik he.symm),
        getD_set_ne _ _ _ (fun he => hil he.symm)]
      exact (h2 i hin).2
  · -- every recorded position points at a live slot recording it
    intro j hj hne
    rw [hdim] at hj
    rw [removeEntryAt_ip hlen hp] at hne
    by_cases hjk : j = s.activeIndexes.getD p 0
    · exfalso
      apply hne
      rw [hjk]
      exact getD_set_self _ _ _ _ (by simpa [dimension] using hkdim)
    · by_cases hjl : j = s.activeIndexes.getD (s.nbActive - 1) 0
      · -- the moved index now lives at slot `p`
        have hlk : s.activeIndexes.getD (s.nbActive - 1) 0 ≠ s.activeIndexes.getD p 0 := by
          rw [← hjl]; exact hjk
        have hpn : p ≠ s.nbActive - 1 := by
          intro he
          exact hlk (by rw [he])
        have hplt : p < s.nbActive - 1 := by omega
        refine ⟨p, ?_, ?_, ?_⟩
        · rw [hnb]; exact hplt
        · rw [removeEntryAt_ip hlen hp, hjl, getD_set_ne _ _ _ (fun he => hlk he.symm),
            getD_set_self _ _ _ _ (by simpa [dimension] using hldim)]
        · rw [removeEntryAt_ai_getD hlen hp hplt, if_pos rfl, hjl]
      · -- untouched index: its old slot survives
        have hipj : ((s.indexesPosition.set (s.activeIndexes.getD (s.nbActive - 1) 0)
            (p : Int)).set (s.activeIndexes.getD p 0) (-1)).getD j (-1) =
            s.indexesPosition.getD j (-1) := by
          rw [getD_set_ne _ _ _ (fun he => hjk he.symm),
            getD_set_ne _ _ _ (fun he => hjl he.symm)]
        rw [hipj] at hne
        obtain ⟨i, hin, hie, hae⟩ := h3 j hj hne
        have hipne : i ≠ p := by
          intro he
          exact hjk (by rw [← hae, he])
        have hinl : i ≠ s.nbActive - 1 := by
          intro he
          exact hjl (by rw [← hae, he])
        have hilt : i < s.nbActive - 1 := by omega
        refine ⟨i, ?_, ?_, ?_⟩
        · rw [hnb]; exact hilt
        · rw [removeEntryAt_ip hlen hp, hipj, hie]
        · rw [removeEntryAt_ai_getD hlen hp hilt, if_neg hipne, hae]

/-- Reading `getEntry` when the recorded position is known. -/
theorem getEntry_eq_of_pos {t : SparseVector} {j i : Nat}
    (he : t.indexesPosition.getD j (-1) = (i : Int)) :
    t.getEntry j = t.values.getD i 0 := by
  unfold getEntry
  rw [he]
  rw [if_pos (by omega), Int.toNat_natCast]

/-- How removal changes the recorded position of any *other* index: the index
moved out of the last slot is re-pointed at `p`; the rest are untouched. -/
theorem removeEntryAt_ip_other {s : SparseVector} (h : WF s) {p : Nat}
    (hp : p < s.nbActive) {j : Nat} (hjk : j ≠ s.activeIndexes.getD p 0) :
    (s.removeEntryAt p).indexesPosition.getD j (-1) =
      if j = s.activeIndexes.getD (s.nbActive - 1) 0 then (p : Int)
      else s.indexesPosition.getD j (-1) := by
  rw [removeEntryAt_ip h.length_values hp, getD_set_ne _ _ _ (fun he => hjk he.symm)]
  by_cases hjl : j = s.activeIndexes.getD (s.nbActive - 1) 0
  · rw [if_pos hjl, hjl,
      getD_set_self _ _ _ _ (by simpa [dimension] using h.index_lt_dim (by omega : s.nbActive - 1 < s.nbActive))]
  · rw [if_neg hjl, getD_set_ne _ _ _ (fun he => hjl he.symm)]

/-- Removal leaves the logical value of every other index unchanged. -/
theorem removeEntryAt_getEntry_other {s : SparseVector} (h : WF s) {p : Nat}
    (hp : p < s.nbActive) {j : Nat} (hjk : j ≠ s.activeIndexes.getD p 0) :
    (s.removeEntryAt p).getEntry j = s.getEntry j := by
  have hip := removeEntryAt_ip_other h hp hjk
  by_cases hjl : j = s.activeIndexes.getD (s.nbActive - 1) 0
  · -- the moved index: now read from slot `p`, previously from the last slot
    rw [if_pos hjl] at hip
    have hpn : p ≠ s.nbActive - 1 := by
      intro he
      exact hjk (by rw [hjl, he])
    have hplt : p < s.nbActive - 1 := by omega
    rw [getEntry_eq_of_pos hip, removeEntryAt_vals_getD h.length_values hp hplt, if_pos rfl,
      hjl, getEntry_slot h (by omega : s.nbActive - 1 < s.nbActive)]
  · rw [if_neg hjl] at hip
    by_cases habs : s.indexesPosition.getD j (-1) = -1
    · rw [getEntry_absent (hip.trans habs), getEntry_absent habs]
    · by_cases hjdim : j < s.dimension
      · obtain ⟨i, hin, hie, hae⟩ := h.slot_of_pos hjdim habs
        have hipne : i ≠ p := fun he => hjk (by rw [← hae, he])
        have hinl : i ≠ s.nbActive - 1 := fun he => hjl (by rw [← hae, he])
        rw [getEntry_eq_of_pos (hip.trans hie), getEntry_eq_of_pos hie,
          removeEntryAt_vals_getD h.length_values hp (by omega), if_neg hipne]
      · -- out-of-range index: `getD` falls back to the default `-1`
        exfalso
        exact habs (List.getD_eq_default _ _ (by simpa [dimension] using Nat.le_of_not_lt hjdim))

/-- The components of `appendEntry`. -/
theorem appendEntry_ai (s : SparseVector) (k : Nat) (val : ℤ) :
    (s.appendEntry k val).activeIndexes = s.activeIndexes ++ [k] := rfl

theorem appendEntry_vals (s : SparseVector) (k : Nat) (val : ℤ) :
    (s.appendEntry k val).values = s.values ++ [val] := rfl

theorem appendEntry_ip (s : SparseVector) (k : Nat) (val : ℤ) :
    (s.appendEntry k val).indexesPosition =
      s.indexesPosition.set k (s.nbActive : Int) := rfl

end SparseVector

/-- The last element of an append. -/
theorem getD_append_last {α : Type} (l : List α) (x d : α) :
    (l ++ [x]).getD l.length d = x := by
  rw [List.getD_append_right _ _ _ _ (le_refl _)]
  simp

/-- The list of live (index, value) pairs of a sparse vector. -/
def activePairs (s : SparseVector) : List (Nat × ℤ) :=
  s.activeIndexes.zip s.values

/-- On a well-formed state the live pairs are exactly the in-range indexes
with a recorded position, paired with their `getEntry` value. -/
theorem mem_activePairs {s : SparseVector} (h : WF s) {q : Nat × ℤ} :
    q ∈ activePairs s ↔
      q.1 < s.dimension ∧ s.indexesPosition.getD q.1 (-1) ≠ -1 ∧
        q.2 = s.getEntry q.1 := by
  unfold activePairs
  constructor
  · intro hq
    obtain ⟨i, hi, he⟩ := List.mem_iff_getElem.mp hq
    have hia : i < s.activeIndexes.length := by
      simp only [List.length_zip] at hi
      omega
    have hiv : i < s.values.length := by
      simp only [List.length_zip] at hi
      omega
    have h1 : s.activeIndexes.getD i 0 = q.1 := by
      rw [List.getD_eq_getElem _ _ hia, ← he, List.getElem_zip]
    have h2 : s.values.getD i 0 = q.2 := by
      rw [List.getD_eq_getElem _ _ hiv, ← he, List.getElem_zip]
    have hin : i < s.nbActive := hia
    refine ⟨h1 ▸ h.index_lt_dim hin, ?_, ?_⟩
    · rw [← h1, h.pos_of_slot hin]
      omega
    · rw [← h1, SparseVector.getEntry_slot h hin, h2]
  · rintro ⟨hdim, hact, hval⟩
    obtain ⟨i, hin, hie, hae⟩ := h.slot_of_pos hdim hact
    have hiv : i < s.values.length := by rw [h.length_values]; exact hin
    refine List.mem_iff_getElem.mpr ⟨i, ?_, ?_⟩
    · simp only [List.length_zip]
      have : i < s.activeIndexes.length := hin
      omega
    · rw [List.getElem_zip]
      have e1 : s.activeIndexes[i] = q.1 := by
        rw [← List.getD_eq_getElem _ 0 (show i < s.activeIndexes.length from hin), hae]
      have e2 : s.values[i] = q.2 := by
        rw [← List.getD_eq_getElem _ 0 hiv, ← SparseVector.getEntry_slot h hin, hae, ← hval]
      rw [e1, e2]

namespace SparseVector

/-- `setNonZeroEntry` makes `getEntry` return the written value (whether it
updated in place or appended). -/
theorem getEntry_setNonZeroEntry_self {s : SparseVector} (h : WF s) {k : Nat}
    (hk : k < s.dimension) (val : ℤ) :
    (s.setNonZeroEntry k val).getEntry k = val := by
  unfold setNonZeroEntry
  by_cases hc : s.indexesPosition.getD k (-1) ≠ -1
  · rw [if_pos hc]
    obtain ⟨i, hin, hie, hae⟩ := h.slot_of_pos hk hc
    rw [getEntry_eq_of_pos
      (show (s.updateEntry val (s.indexesPosition.getD k (-1)).toNat).indexesPosition.getD
        k (-1) = (i : Int) from hie)]
    show (s.values.set (s.indexesPosition.getD k (-1)).toNat val).getD i 0 = val
    rw [hie, Int.toNat_natCast,
      getD_set_self _ _ _ _ (by rw [h.length_values]; exact hin)]
  · rw [if_neg hc]
    have hipk : (s.insertEntry k val).indexesPosition.getD k (-1) = (s.nbActive : Int) := by
      rw [show (s.insertEntry k val).indexesPosition =
        s.indexesPosition.set k (s.nbActive : Int) from rfl, getD_set_self _ _ _ _ hk]
    rw [getEntry_eq_of_pos hipk]
    show (s.values ++ [val]).getD s.nbActive 0 = val
    rw [show s.nbActive = s.values.length from h.length_values.symm, getD_append_last]

/-- `removeEntry(index)` on an index live at slot `i` reduces to the private
positional removal at `i`. -/
theorem removeEntry_eq_removeEntryAt {s : SparseVector} {k i : Nat}
    (hie : s.indexesPosition.getD k (-1) = (i : Int)) :
    s.removeEntry k = s.removeEntryAt i := by
  unfold removeEntry
  rw [hie, if_pos (by omega), Int.toNat_natCast]

/-- `removeEntry(index)` on an absent index is the identity. -/
theorem removeEntry_absent {s : SparseVector} {k : Nat}
    (ha : s.indexesPosition.getD k (-1) = -1) : s.removeEntry k = s := by
  unfold removeEntry
  rw [ha]
  simp

end SparseVector

namespace SparseVector

/-- Removal does not change whether any *other* index is active. -/
theorem removeEntryAt_active_other {s : SparseVector} (h : WF s) {p : Nat}
    (hp : p < s.nbActive) {j : Nat} (hjk : j ≠ s.activeIndexes.getD p 0) :
    ((s.removeEntryAt p).indexesPosition.getD j (-1) ≠ -1 ↔
      s.indexesPosition.getD j (-1) ≠ -1) := by
  rw [removeEntryAt_ip_other h hp hjk]
  by_cases hjl : j = s.activeIndexes.getD (s.nbActive - 1) 0
  · rw [if_pos hjl]
    constructor
    · intro
      rw [hjl, h.pos_of_slot (show s.nbActive - 1 < s.nbActive by omega)]
      omega
    · intro
      omega
  · rw [if_neg hjl]

end SparseVector

/-- C1.  For every well-formed sparse vector and valid index `k`,
`setEntry(k, v)` followed by `getEntry(k)` returns `v` when `v ≠ 0`; when
`v = 0`, `getEntry(k)` returns `0`, `k` is absent from the active set
(`indexesPosition[k] == -1`), and the active count did not grow. -/
theorem setEntry_getEntry_spec (s : SparseVector) (h : WF s) (k : Nat)
    (hk : k < s.dimension) (v : ℤ) :
    (v ≠ 0 → (s.setEntry k v).getEntry k = v) ∧
    (v = 0 → (s.setEntry k v).getEntry k = 0 ∧
      (s.setEntry k v).indexesPosition.getD k (-1) = -1 ∧
      (s.setEntry k v).nbActive ≤ s.nbActive) := by
  constructor
  · intro hv
    unfold SparseVector.setEntry
    rw [if_neg hv]
    exact SparseVector.getEntry_setNonZeroEntry_self h hk v
  · intro hv
    subst hv
    unfold SparseVector.setEntry
    rw [if_pos rfl]
    by_cases hc : s.indexesPosition.getD k (-1) ≠ -1
    · obtain ⟨i, hin, hie, hae⟩ := h.slot_of_pos hk hc
      rw [SparseVector.removeEntry_eq_removeEntryAt hie]
      have habs : (s.removeEntryAt i).indexesPosition.getD k (-1) = -1 := by
        have := SparseVector.removeEntryAt_ip_self h hin
        rwa [hae] at this
      refine ⟨SparseVector.getEntry_absent habs, habs, ?_⟩
      rw [SparseVector.removeEntryAt_nbActive h hin]
      omega
    · have ha : s.indexesPosition.getD k (-1) = -1 := not_not.mp hc
      rw [SparseVector.removeEntry_absent ha]
      exact ⟨SparseVector.getEntry_absent ha, ha, le_refl _⟩

/-- Witness for C1 at a concrete input. -/
theorem setEntry_getEntry_spec_witness :
    ((SparseVector.mkEmpty 2).setEntry 1 5).getEntry 1 = 5 ∧
      ((SparseVector.mkEmpty 2).setEntry 1 0).getEntry 1 = 0 :=
  ⟨(setEntry_getEntry_spec (SparseVector.mkEmpty 2) (by decide) 1 (by decide) 5).1
      (by decide),
    ((setEntry_getEntry_spec (SparseVector.mkEmpty 2) (by decide) 1 (by decide) 0).2
      rfl).1⟩

/-- C5.  Removing an active index from a well-formed sparse vector keeps the
invariant `indexesPosition[activeIndexes[i]] == i` for every live slot,
decreases the active count by one, marks the removed index absent, and leaves
the set of other live (index, value) pairs unchanged. -/
theorem removeEntry_swap_spec (s : SparseVector) (h : WF s) (k : Nat)
    (hk : k < s.dimension) (hact : s.indexesPosition.getD k (-1) ≠ -1) :
    (∀ i, i < (s.removeEntry k).nbActive →
      (s.removeEntry k).indexesPosition.getD
        ((s.removeEntry k).activeIndexes.getD i 0) (-1) = (i : Int)) ∧
    (s.removeEntry k).nbActive + 1 = s.nbActive ∧
    (s.removeEntry k).indexesPosition.getD k (-1) = -1 ∧
    (∀ q : Nat × ℤ, q ∈ activePairs (s.removeEntry k) ↔
      q ∈ activePairs s ∧ q.1 ≠ k) := by
  obtain ⟨i, hin, hie, hae⟩ := h.slot_of_pos hk hact
  rw [SparseVector.removeEntry_eq_removeEntryAt hie]
  have hwf2 := SparseVector.removeEntryAt_wf h hin
  have habs : (s.removeEntryAt i).indexesPosition.getD k (-1) = -1 := by
    have := SparseVector.removeEntryAt_ip_self h hin
    rwa [hae] at this
  have hdim2 := SparseVector.removeEntryAt_dimension h hin
  refine ⟨fun j hj => hwf2.pos_of_slot hj, ?_, habs, ?_⟩
  · rw [SparseVector.removeEntryAt_nbActive h hin]
    omega
  · intro q
    rw [mem_activePairs hwf2, mem_activePairs h]
    constructor
    · rintro ⟨h1, h2, h3⟩
      have hq1k : q.1 ≠ k := by
        intro he
        rw [he, habs] at h2
        exact h2 rfl
      have hjk : q.1 ≠ s.activeIndexes.getD i 0 := by rw [hae]; exact hq1k
      refine ⟨⟨by rwa [hdim2] at h1, ?_, ?_⟩, hq1k⟩
      · exact (SparseVector.removeEntryAt_active_other h hin hjk).mp h2
      · rw [← SparseVector.removeEntryAt_getEntry_other h hin hjk]
        exact h3
    · rintro ⟨⟨h1, h2, h3⟩, hq1k⟩
      have hjk : q.1 ≠ s.activeIndexes.getD i 0 := by rw [hae]; exact hq1k
      refine ⟨by rwa [hdim2], ?_, ?_⟩
      · exact (SparseVector.removeEntryAt_active_other h hin hjk).mpr h2
      · rw [SparseVector.removeEntryAt_getEntry_other h hin hjk]
        exact h3

/-- Witness for C5 at a concrete input: remove index 1 from `{1 ↦ 2, 3 ↦ 4}`. -/
theorem removeEntry_swap_spec_witness :
    ((((SparseVector.mkEmpty 5).setEntry 1 2).setEntry 3 4).removeEntry 1).nbActive + 1 =
      (((SparseVector.mkEmpty 5).setEntry 1 2).setEntry 3 4).nbActive :=
  (removeEntry_swap_spec (((SparseVector.mkEmpty 5).setEntry 1 2).setEntry 3 4)
    (by decide) 1 (by decide) (by decide)).2.1

namespace SparseVector

theorem insertEntry_nbActive (s : SparseVector) (k : Nat) (val : ℤ) :
    (s.insertEntry k val).nbActive = s.nbActive + 1 := by
  simp [nbActive, insertEntry, appendEntry]

/-- `setEntry` never leaves an explicit zero in the live values. -/
theorem setEntry_noZeros {s : SparseVector} (h : WF s) (hz : NoZeros s) (k : Nat)
    (val : ℤ) : NoZeros (s.setEntry k val) := by
  unfold setEntry
  by_cases hv : val = 0
  · rw [if_pos hv]
    by_cases hc : s.indexesPosition.getD k (-1) = -1
    · rw [removeEntry_absent hc]
      exact hz
    · have hk : k < s.dimension := by
        by_contra hnk
        exact hc (List.getD_eq_default _ _ (Nat.le_of_not_lt hnk))
      obtain ⟨i, hin, hie, hae⟩ := h.slot_of_pos hk hc
      rw [removeEntry_eq_removeEntryAt hie]
      intro j hj
      rw [removeEntryAt_nbActive h hin] at hj
      rw [removeEntryAt_vals_getD h.length_values hin hj]
      by_cases hji : j = i
      · rw [if_pos hji]
        exact hz (s.nbActive - 1) (by omega)
      · rw [if_neg hji]
        exact hz j (by omega)
  · rw [if_neg hv]
    unfold setNonZeroEntry
    by_cases hc : s.indexesPosition.getD k (-1) ≠ -1
    · rw [if_pos hc]
      have hk : k < s.dimension := by
        by_contra hnk
        exact hc (List.getD_eq_default _ _ (Nat.le_of_not_lt hnk))
      obtain ⟨i, hin, hie, hae⟩ := h.slot_of_pos hk hc
      intro j hj
      have hj2 : j < s.nbActive := hj
      show (s.values.set (s.indexesPosition.getD k (-1)).toNat val).getD j 0 ≠ 0
      rw [hie, Int.toNat_natCast]
      by_cases hji : j = i
      · rw [hji, getD_set_self _ _ _ _ (by rw [h.length_values]; exact hin)]
        exact hv
      · rw [getD_set_ne _ _ _ (fun he => hji he.symm)]
        exact hz j hj2
    · rw [if_neg hc]
      intro j hj
      rw [insertEntry_nbActive] at hj
      show (s.values ++ [val]).getD j 0 ≠ 0
      by_cases hjn : j < s.values.length
      · rw [List.getD_append _ _ _ _ hjn]
        refine hz j ?_
        have hh := h.length_values
        simp only [nbActive]
        omega
      · have hje : j = s.values.length := by
          have := h.length_values
          simp only [nbActive] at hj this
          omega
        rw [hje, getD_append_last]
        exact hv

end SparseVector

/-- Counterexample to C4 as stated: both `addToSelf` (with a cancelling
factor) and `ebeAddConstantToSelf` (with a cancelling constant) store an
explicit zero in a live slot, because both call `setNonZeroEntry` with a
value that may be zero. -/
theorem explicit_zero_stored_cex :
    WF ((SparseVector.mkEmpty 1).setEntry 0 1) ∧
    NoZeros ((SparseVector.mkEmpty 1).setEntry 0 1) ∧
    ¬ NoZeros (((SparseVector.mkEmpty 1).setEntry 0 1).addToSelf (-1)
      ((SparseVector.mkEmpty 1).setEntry 0 1)) ∧
    ¬ NoZeros (((SparseVector.mkEmpty 1).setEntry 0 1).ebeAddConstantToSelf (-1)) := by
  decide

/-- C4 (amended).  `setEntry` preserves the no-explicit-zero invariant on
every well-formed state, but `addToSelf` and `ebeAddConstantToSelf` do not:
when the arithmetic result at an index is zero they store an explicit zero
through `setNonZeroEntry`. -/
theorem noZeros_preservation_amended :
    (∀ (s : SparseVector), WF s → NoZeros s → ∀ (k : Nat) (val : ℤ),
      NoZeros (s.setEntry k val)) ∧
    ¬ NoZeros (((SparseVector.mkEmpty 1).setEntry 0 1).addToSelf (-1)
      ((SparseVector.mkEmpty 1).setEntry 0 1)) ∧
    ¬ NoZeros (((SparseVector.mkEmpty 1).setEntry 0 1).ebeAddConstantToSelf (-1)) := by
  refine ⟨fun s h hz k val => SparseVector.setEntry_noZeros h hz k val, ?_, ?_⟩
  · decide
  · decide

/-- Witness for the amended C4 at a concrete input. -/
theorem noZeros_preservation_amended_witness :
    NoZeros (((SparseVector.mkEmpty 2).setEntry 0 3).setEntry 1 4) :=
  noZeros_preservation_amended.1 ((SparseVector.mkEmpty 2).setEntry 0 3)
    (by decide) (by decide) 1 4

/-- Counterexample to C3 as stated: a stored dimension (3) differing from the
receiver's declared dimension (2) makes sparse `resurrect` fail the
`assert(indexesPositionLength == rcapacity)` — the mismatch is fatal, the
operation does not proceed. -/
theorem sparse_resurrect_dim_cex :
    (SparseVector.mkEmpty 2).resurrect (some ⟨1, 3, 0, [], []⟩) =
      Except.error ResurrectError.assertFailed := rfl

/-- C3 (amended).  Sparse `resurrect` enforces equality between the stored
dimension and the receiver's declared dimension with a fatal `assert`, the
same enforcement the dense variant applies; the mismatch is not merely
logged. -/
theorem sparse_resurrect_dim_enforced (s : SparseVector) (f : SparseFile)
    (hmm : s.dimension ≠ f.rcapacity) :
    s.resurrect (some f) = Except.error ResurrectError.assertFailed := by
  simp only [SparseVector.resurrect]
  by_cases ht : f.vectorType ≠ 1
  · rw [if_pos ht]
  · rw [if_neg ht, if_pos hmm]

/-- Witness for the amended C3 at a concrete input. -/
theorem sparse_resurrect_dim_enforced_witness :
    (SparseVector.mkEmpty 2).resurrect (some ⟨1, 5, 0, [], []⟩) =
      Except.error ResurrectError.assertFailed :=
  sparse_resurrect_dim_enforced (SparseVector.mkEmpty 2) ⟨1, 5, 0, [], []⟩ (by decide)

/-- C8.  For both representations an unopenable file makes `resurrect`
terminate fatally (`exit(-1)`); the dense variant additionally fails its
asserts when the leading tag is not the dense tag, or when the stored
capacity differs from the receiver's declared capacity. -/
theorem resurrect_failure_spec :
    (∀ s : SparseVector, s.resurrect none = Except.error ResurrectError.exitCalled) ∧
    (∀ d : DenseVector, d.resurrect none = Except.error ResurrectError.exitCalled) ∧
    (∀ (d : DenseVector) (f : DenseVector.File), f.vectorType ≠ 0 →
      d.resurrect (some f) = Except.error ResurrectError.assertFailed) ∧
    (∀ (d : DenseVector) (f : DenseVector.File), d.capacity ≠ f.rcapacity →
      d.resurrect (some f) = Except.error ResurrectError.assertFailed) := by
  refine ⟨fun s => rfl, fun d => rfl, ?_, ?_⟩
  · intro d f ht
    simp only [DenseVector.resurrect]
    rw [if_pos ht]
  · intro d f hcap
    simp only [DenseVector.resurrect]
    by_cases ht : f.vectorType ≠ 0
    · rw [if_pos ht]
    · rw [if_neg ht, if_pos hcap]

/-- Witness for C8 at concrete inputs. -/
theorem resurrect_failure_spec_witness :
    DenseVector.resurrect ⟨[0]⟩ (some ⟨5, 1, []⟩) =
      Except.error ResurrectError.assertFailed ∧
    DenseVector.resurrect ⟨[0]⟩ (some ⟨0, 2, []⟩) =
      Except.error ResurrectError.assertFailed :=
  ⟨resurrect_failure_spec.2.2.1 ⟨[0]⟩ ⟨5, 1, []⟩ (by decide),
    resurrect_failure_spec.2.2.2 ⟨[0]⟩ ⟨0, 2, []⟩ (by decide)⟩

/-- Pushing each element of a list onto an accumulator reproduces the list. -/
theorem foldl_push_eq {α : Type} (l acc : List α) :
    l.foldl (fun a x => a ++ [x]) acc = acc ++ l := by
  induction l generalizing acc with
  | nil => simp
  | cons x xs ih => simp [ih]

/-- Counterexample to C9 as stated: the `SparseVectors` collection's copy
constructor copies member *pointers*, so a `setEntry` through the copy's
member 0 changes the value observed through the original's member 0 (from 0
to 5 here). -/
theorem collection_copy_aliases_cex :
    (((setEntryOnHeap [SparseVector.mkEmpty 1]
        ((SparseVectors.copyConstruct ⟨[0]⟩).getAt 0) 0 5).getD
        ((⟨[0]⟩ : SparseVectors).getAt 0) nullSparse).getEntry 0) = 5 ∧
    ((([SparseVector.mkEmpty 1] : Heap).getD
        ((⟨[0]⟩ : SparseVectors).getAt 0) nullSparse).getEntry 0) = 0 := by
  decide

/-- C9 (amended).  `SparseVector`'s copy constructor is a deep copy: it
allocates a fresh heap cell holding the source's state, and mutating the copy
leaves the source cell unchanged.  The `SparseVectors` collection's copy
constructor, by contrast, pushes the member pointers themselves, so copy and
original share members. -/
theorem copy_semantics_amended :
    (∀ (h : Heap) (src : Nat), src < h.length → ∀ (k : Nat) (val : ℤ),
      (setEntryOnHeap (copyConstructSparse h src).1 (copyConstructSparse h src).2
          k val).getD src nullSparse = h.getD src nullSparse ∧
        (copyConstructSparse h src).1.getD (copyConstructSparse h src).2 nullSparse =
          h.getD src nullSparse) ∧
    (∀ c : SparseVectors, (SparseVectors.copyConstruct c).vectors = c.vectors) := by
  constructor
  · intro h src hsrc k val
    constructor
    · unfold setEntryOnHeap copyConstructSparse
      rw [getD_set_ne _ _ _ (by omega), List.getD_append _ _ _ _ hsrc]
    · unfold copyConstructSparse
      exact getD_append_last _ _ _
  · intro c
    unfold SparseVectors.copyConstruct
    rw [foldl_push_eq]
    simp

/-- Witness for the amended C9 at a concrete input. -/
theorem copy_semantics_amended_witness :
    (setEntryOnHeap (copyConstructSparse [SparseVector.mkEmpty 1] 0).1
        (copyConstructSparse [SparseVector.mkEmpty 1] 0).2 0 7).getD 0 nullSparse =
      ([SparseVector.mkEmpty 1] : Heap).getD 0 nullSparse :=
  (copy_semantics_amended.1 [SparseVector.mkEmpty 1] 0 (by decide) 0 7).1

/-! ### The insertion loop of sparse `resurrect` -/

theorem range_map_getD' {α : Type} (l : List α) (d : α) (n : Nat) (hn : l.length = n) :
    (List.range n).map (fun i => l.getD i d) = l := by
  subst hn
  exact range_map_getD l d

theorem getD_map_range {α : Type} (g : Nat → α) {n p : Nat} (d : α) (hp : p < n) :
    ((List.range n).map g).getD p d = g p := by
  rw [List.getD_eq_getElem _ _ (by simpa using hp)]
  simp

namespace SparseVector

theorem foldl_insert_ai (L : List (Nat × ℤ)) (t : SparseVector) :
    (L.foldl (fun acc q => acc.insertEntry q.1 q.2) t).activeIndexes =
      t.activeIndexes ++ L.map Prod.fst := by
  induction L generalizing t with
  | nil => simp
  | cons q L ih =>
    rw [List.foldl_cons, ih]
    show (t.activeIndexes ++ [q.1]) ++ L.map Prod.fst =
      t.activeIndexes ++ (q.1 :: L.map Prod.fst)
    rw [List.append_assoc]
    rfl

theorem foldl_insert_vals (L : List (Nat × ℤ)) (t : SparseVector) :
    (L.foldl (fun acc q => acc.insertEntry q.1 q.2) t).values =
      t.values ++ L.map Prod.snd := by
  induction L generalizing t with
  | nil => simp
  | cons q L ih =>
    rw [List.foldl_cons, ih]
    show (t.values ++ [q.2]) ++ L.map Prod.snd =
      t.values ++ (q.2 :: L.map Prod.snd)
    rw [List.append_assoc]
    rfl

theorem foldl_insert_dimension (L : List (Nat × ℤ)) (t : SparseVector) :
    (L.foldl (fun acc q => acc.insertEntry q.1 q.2) t).dimension = t.dimension := by
  induction L generalizing t with
  | nil => rfl
  | cons q L ih =>
    simp only [List.foldl_cons, ih]
    simp [dimension, insertEntry, appendEntry]

/-- Indexes never inserted keep their recorded position. -/
theorem foldl_insert_ip_notMem (L : List (Nat × ℤ)) :
    ∀ (t : SparseVector) {k : Nat}, k ∉ L.map Prod.fst →
      (L.foldl (fun acc q => acc.insertEntry q.1 q.2) t).indexesPosition.getD k (-1) =
        t.indexesPosition.getD k (-1) := by
  induction L with
  | nil => intro t k _; rfl
  | cons q L ih =>
    intro t k hk
    simp only [List.map_cons, List.mem_cons, not_or] at hk
    rw [List.foldl_cons, ih _ hk.2]
    show (t.indexesPosition.set q.1 (t.nbActive : Int)).getD k (-1) =
      t.indexesPosition.getD k (-1)
    exact getD_set_ne _ _ _ (fun he => hk.1 he.symm)

/-- An inserted index ends up recorded at some position at or beyond the
starting live count. -/
theorem foldl_insert_ip_mem (L : List (Nat × ℤ)) :
    ∀ (t : SparseVector) {k : Nat}, k ∈ L.map Prod.fst → k < t.dimension →
      ∃ m : Nat, t.nbActive ≤ m ∧
        (L.foldl (fun acc q => acc.insertEntry q.1 q.2) t).indexesPosition.getD k (-1) =
          (m : Int) := by
  induction L with
  | nil =>
    intro t k hk _
    simp at hk
  | cons q L ih =>
    intro t k hk hdim
    rw [List.foldl_cons]
    by_cases hkL : k ∈ L.map Prod.fst
    · obtain ⟨m, hm1, hm2⟩ := ih (t.insertEntry q.1 q.2) hkL
        (by
          rw [show (t.insertEntry q.1 q.2).dimension = t.dimension from by
            simp [dimension, insertEntry, appendEntry]]
          exact hdim)
      refine ⟨m, ?_, hm2⟩
      have he := insertEntry_nbActive t q.1 q.2
      omega
    · have hkq : k = q.1 := by
        simp only [List.map_cons, List.mem_cons] at hk
        tauto
      rw [foldl_insert_ip_notMem L _ hkL]
      refine ⟨t.nbActive, le_refl _, ?_⟩
      show (t.indexesPosition.set q.1 (t.nbActive : Int)).getD k (-1) = (t.nbActive : Int)
      rw [hkq]
      exact getD_set_self _ _ _ _ (hkq ▸ hdim)

/-- The successful branch of sparse `resurrect`: both asserts pass, and the
stored pairs are inserted in order on top of the receiver. -/
theorem resurrect_ok {s : SparseVector} {f : SparseFile} (ht : f.vectorType = 1)
    (hc : s.dimension = f.rcapacity) :
    s.resurrect (some f) = Except.ok ((List.range f.rnbActive).foldl
      (fun acc position => acc.insertEntry (f.ractiveIndexes.getD position 0)
        (f.rvalues.getD position 0)) s) := by
  simp only [SparseVector.resurrect]
  rw [if_neg (by simp [ht]), if_neg (by simp [hc])]

end SparseVector

/-- C2.  Persisting a well-formed sparse vector and resurrecting the file
into a freshly constructed sparse vector of the same declared dimension
succeeds and reproduces exactly the same set of live (index, value) pairs. -/
theorem persist_resurrect_roundtrip (s : SparseVector) (h : WF s) :
    ∃ t, (SparseVector.mkEmpty s.dimension).resurrect (some s.persist) = Except.ok t ∧
      ∀ q : Nat × ℤ, q ∈ activePairs t ↔ q ∈ activePairs s := by
  have hdm : (SparseVector.mkEmpty s.dimension).dimension = (s.persist).rcapacity := by
    simp [SparseVector.mkEmpty, SparseVector.dimension, SparseVector.persist]
  refine ⟨_, SparseVector.resurrect_ok rfl hdm, ?_⟩
  intro q
  have hfold : (List.range (s.persist).rnbActive).foldl
      (fun acc position => acc.insertEntry ((s.persist).ractiveIndexes.getD position 0)
        ((s.persist).rvalues.getD position 0)) (SparseVector.mkEmpty s.dimension) =
      ((List.range s.nbActive).map (fun p => ((s.persist).ractiveIndexes.getD p 0,
        (s.persist).rvalues.getD p 0))).foldl
        (fun acc q2 => acc.insertEntry q2.1 q2.2) (SparseVector.mkEmpty s.dimension) := by
    rw [List.foldl_map]
    rfl
  rw [hfold]
  have hai : (((List.range s.nbActive).map (fun p => ((s.persist).ractiveIndexes.getD p 0,
      (s.persist).rvalues.getD p 0))).foldl
      (fun acc q2 => acc.insertEntry q2.1 q2.2)
      (SparseVector.mkEmpty s.dimension)).activeIndexes = s.activeIndexes := by
    rw [SparseVector.foldl_insert_ai, List.map_map]
    show (List.range s.nbActive).map (fun p => s.activeIndexes.getD p 0) = s.activeIndexes
    exact range_map_getD' _ _ _ rfl
  have hvals : (((List.range s.nbActive).map (fun p => ((s.persist).ractiveIndexes.getD p 0,
      (s.persist).rvalues.getD p 0))).foldl
      (fun acc q2 => acc.insertEntry q2.1 q2.2)
      (SparseVector.mkEmpty s.dimension)).values = s.values := by
    rw [SparseVector.foldl_insert_vals, List.map_map]
    show (List.range s.nbActive).map
      (fun p => ((List.range s.nbActive).map (fun i => s.values.getD i 0)).getD p 0) =
      s.values
    rw [List.map_congr_left (fun p hp =>
      getD_map_range (fun i => s.values.getD i 0) 0 (List.mem_range.mp hp))]
    exact range_map_getD' _ _ _ h.length_values
  unfold activePairs
  rw [hai, hvals]

/-- Witness for C2 at a concrete input: round-trip `{1 ↦ 2, 3 ↦ 4}`. -/
theorem persist_resurrect_roundtrip_witness :
    ∃ t, (SparseVector.mkEmpty
        (((SparseVector.mkEmpty 5).setEntry 1 2).setEntry 3 4).dimension).resurrect
        (some (((SparseVector.mkEmpty 5).setEntry 1 2).setEntry 3 4).persist) =
      Except.ok t ∧
      ∀ q : Nat × ℤ, q ∈ activePairs t ↔
        q ∈ activePairs (((SparseVector.mkEmpty 5).setEntry 1 2).setEntry 3 4) :=
  persist_resurrect_roundtrip (((SparseVector.mkEmpty 5).setEntry 1 2).setEntry 3 4)
    (by decide)

/-- C10.  Sparse `resurrect` does not clear the receiver: the stored indexes
are appended to whatever live entries the receiver already holds, and when a
stored index is already active in the receiver, the resulting state violates
the invariant `indexesPosition[activeIndexes[i]] == i` at some live slot. -/
theorem resurrect_no_clear_spec (s : SparseVector) (h : WF s) (f : SparseFile)
    (ht : f.vectorType = 1) (hc : s.dimension = f.rcapacity)
    (k : Nat) (hk : k < s.dimension)
    (hact : s.indexesPosition.getD k (-1) ≠ -1)
    (hmem : k ∈ (List.range f.rnbActive).map (fun p => f.ractiveIndexes.getD p 0)) :
    ∃ t, s.resurrect (some f) = Except.ok t ∧
      t.activeIndexes = s.activeIndexes ++
        (List.range f.rnbActive).map (fun p => f.ractiveIndexes.getD p 0) ∧
      ¬ (∀ i, i < t.nbActive →
        t.indexesPosition.getD (t.activeIndexes.getD i 0) (-1) = (i : Int)) := by
  refine ⟨_, SparseVector.resurrect_ok ht hc, ?_, ?_⟩
  · rw [show (List.range f.rnbActive).foldl
        (fun acc position => acc.insertEntry (f.ractiveIndexes.getD position 0)
          (f.rvalues.getD position 0)) s =
        ((List.range f.rnbActive).map (fun p => (f.ractiveIndexes.getD p 0,
          f.rvalues.getD p 0))).foldl (fun acc q2 => acc.insertEntry q2.1 q2.2) s from by
        rw [List.foldl_map],
      SparseVector.foldl_insert_ai, List.map_map]
    rfl
  · intro hinv
    obtain ⟨i0, hi0n, hi0e, hi0a⟩ := h.slot_of_pos hk hact
    have hfold : (List.range f.rnbActive).foldl
        (fun acc position => acc.insertEntry (f.ractiveIndexes.getD position 0)
          (f.rvalues.getD position 0)) s =
        ((List.range f.rnbActive).map (fun p => (f.ractiveIndexes.getD p 0,
          f.rvalues.getD p 0))).foldl (fun acc q2 => acc.insertEntry q2.1 q2.2) s := by
      rw [List.foldl_map]
    have hmem2 : k ∈ ((List.range f.rnbActive).map (fun p => (f.ractiveIndexes.getD p 0,
        f.rvalues.getD p 0))).map Prod.fst := by
      rw [List.map_map]
      exact hmem
    obtain ⟨m, hm1, hm2⟩ := SparseVector.foldl_insert_ip_mem _ s hmem2 hk
    rw [← hfold] at hm2
    -- slot `i0` of the result still holds `k`
    have hai : ((List.range f.rnbActive).foldl
        (fun acc position => acc.insertEntry (f.ractiveIndexes.getD position 0)
          (f.rvalues.getD position 0)) s).activeIndexes =
        s.activeIndexes ++ ((List.range f.rnbActive).map (fun p => (f.ractiveIndexes.getD p 0,
          f.rvalues.getD p 0))).map Prod.fst := by
      rw [hfold, SparseVector.foldl_insert_ai]
    have hslot : ((List.range f.rnbActive).foldl
        (fun acc position => acc.insertEntry (f.ractiveIndexes.getD position 0)
          (f.rvalues.getD position 0)) s).activeIndexes.getD i0 0 = k := by
      rw [hai, List.getD_append _ _ _ _ hi0n, hi0a]
    have hi0lt : i0 < ((List.range f.rnbActive).foldl
        (fun acc position => acc.insertEntry (f.ractiveIndexes.getD position 0)
          (f.rvalues.getD position 0)) s).nbActive := by
      show i0 < (_ : SparseVector).activeIndexes.length
      rw [hai, List.length_append]
      have : i0 < s.activeIndexes.length := hi0n
      omega
    have := hinv i0 hi0lt
    rw [hslot, hm2] at this
    have : m = i0 := by omega
    omega

/-- Witness for C10 at a concrete input: receiver `{0 ↦ 3}` of dimension 2,
file storing the pair `(0, 4)`. -/
theorem resurrect_no_clear_spec_witness :
    ∃ t, ((SparseVector.mkEmpty 2).setEntry 0 3).resurrect
        (some ⟨1, 2, 1, [0], [4]⟩) = Except.ok t ∧
      t.activeIndexes = ((SparseVector.mkEmpty 2).setEntry 0 3).activeIndexes ++
        (List.range (1 : Nat)).map (fun p => ([0] : List Nat).getD p 0) ∧
      ¬ (∀ i, i < t.nbActive →
        t.indexesPosition.getD (t.activeIndexes.getD i 0) (-1) = (i : Int)) :=
  resurrect_no_clear_spec ((SparseVector.mkEmpty 2).setEntry 0 3) (by decide)
    ⟨1, 2, 1, [0], [4]⟩ rfl (by decide) 0 (by decide) (by decide) (by decide)

/-! ### Dot product -/

theorem foldl_add_eq_sum (f : Nat → ℤ) (l : List Nat) (c : ℤ) :
    l.foldl (fun acc i => acc + f i) c = c + (l.map f).sum := by
  induction l generalizing c with
  | nil => simp
  | cons x xs ih => simp [ih, add_assoc]

/-- The live indexes of a well-formed sparse vector are pairwise distinct. -/
theorem WF.nodup_ai {s : SparseVector} (h : WF s) : s.activeIndexes.Nodup := by
  rw [List.nodup_iff_injective_getElem]
  rintro ⟨i, hi⟩ ⟨j, hj⟩ he
  simp only at he
  have hh := h.slot_inj hi hj
    (by rw [List.getD_eq_getElem _ _ hi, List.getD_eq_getElem _ _ hj]; exact he)
  exact Fin.ext hh

/-- An index is live exactly when it occurs in `activeIndexes`. -/
theorem WF.mem_ai_of_active {s : SparseVector} (h : WF s) {k : Nat}
    (hk : k < s.dimension) (hact : s.indexesPosition.getD k (-1) ≠ -1) :
    k ∈ s.activeIndexes := by
  obtain ⟨i, hin, _, hae⟩ := h.slot_of_pos hk hact
  exact List.mem_iff_getElem.mpr ⟨i, hin, by rw [← List.getD_eq_getElem _ 0 hin, hae]⟩

theorem WF.active_of_mem_ai {s : SparseVector} (h : WF s) {k : Nat}
    (hk : k ∈ s.activeIndexes) : k < s.dimension := by
  obtain ⟨i, hi, he⟩ := List.mem_iff_getElem.mp hk
  have := h.index_lt_dim hi
  rwa [List.getD_eq_getElem _ _ hi, he] at this

/-- The private `dot(_this, _that)` equals the full sum over the declared
dimension of `_that.getEntry(k) * _this.getEntry(k)`: inactive indexes of
`_this` contribute zero. -/
theorem dotAux_eq_sum {t1 : SparseVector} (h1 : WF t1) (t2 : SparseVector)
    (dim : Nat) (hdim : t1.dimension = dim) :
    SparseVector.dotAux t1 t2 =
      ((List.range dim).map (fun k => t2.getEntry k * t1.getEntry k)).sum := by
  subst hdim
  unfold SparseVector.dotAux
  rw [foldl_add_eq_sum
    (fun p => t2.getEntry (t1.activeIndexes.getD p 0) * t1.values.getD p 0)
    (List.range t1.nbActive) 0, zero_add]
  rw [List.map_congr_left (fun p hp => by
    rw [← SparseVector.getEntry_slot h1 (List.mem_range.mp hp)])]
  rw [show (List.range t1.nbActive).map
      (fun p => t2.getEntry (t1.activeIndexes.getD p 0) *
        t1.getEntry (t1.activeIndexes.getD p 0)) =
      ((List.range t1.nbActive).map (fun p => t1.activeIndexes.getD p 0)).map
        (fun k => t2.getEntry k * t1.getEntry k) from by rw [List.map_map]; rfl,
    range_map_getD' t1.activeIndexes 0 t1.nbActive rfl,
    ← List.sum_toFinset _ h1.nodup_ai,
    ← List.sum_toFinset _ (List.nodup_range t1.dimension)]
  apply Finset.sum_subset
  · intro x hx
    rw [List.mem_toFinset] at hx
    rw [List.mem_toFinset, List.mem_range]
    exact h1.active_of_mem_ai hx
  · intro x hx hnx
    rw [List.mem_toFinset, List.mem_range] at hx
    rw [List.mem_toFinset] at hnx
    have habs : t1.indexesPosition.getD x (-1) = -1 := by
      by_contra hne
      exact hnx (h1.mem_ai_of_active hx hne)
    rw [SparseVector.getEntry_absent habs, mul_zero]

/-- C7.  For well-formed sparse vectors of equal declared dimension the dot
product is symmetric — even though the implementation iterates only the
operand with fewer active entries — and both orders equal the sum over all
indices of the product of the two logical values. -/
theorem dot_symm_spec (a b : SparseVector) (ha : WF a) (hb : WF b)
    (hdim : a.dimension = b.dimension) :
    a.dot b = b.dot a ∧
    a.dot b = ((List.range a.dimension).map
      (fun k => a.getEntry k * b.getEntry k)).sum := by
  have hAB : SparseVector.dotAux a b = ((List.range a.dimension).map
      (fun k => a.getEntry k * b.getEntry k)).sum := by
    rw [dotAux_eq_sum ha b a.dimension rfl]
    exact congrArg List.sum
      (List.map_congr_left (fun k _ => mul_comm (b.getEntry k) (a.getEntry k)))
  have hBA : SparseVector.dotAux b a = ((List.range a.dimension).map
      (fun k => a.getEntry k * b.getEntry k)).sum :=
    dotAux_eq_sum hb a a.dimension hdim.symm
  constructor
  · unfold SparseVector.dot
    split_ifs <;> simp [hAB, hBA]
  · unfold SparseVector.dot
    split_ifs with hlt
    · exact hAB
    · exact hBA

/-- Witness for C7 at concrete inputs: `{1 ↦ 2, 3 ↦ 4} · {1 ↦ 1, 2 ↦ 5}`. -/
theorem dot_symm_spec_witness :
    (((SparseVector.mkEmpty 5).setEntry 1 2).setEntry 3 4).dot
        (((SparseVector.mkEmpty 5).setEntry 1 1).setEntry 2 5) =
      (((SparseVector.mkEmpty 5).setEntry 1 1).setEntry 2 5).dot
        (((SparseVector.mkEmpty 5).setEntry 1 2).setEntry 3 4) :=
  (dot_symm_spec (((SparseVector.mkEmpty 5).setEntry 1 2).setEntry 3 4)
    (((SparseVector.mkEmpty 5).setEntry 1 1).setEntry 2 5)
    (by decide) (by decide) (by decide)).1

/-! ### Element-by-element multiplication -/

theorem wf_updateEntry {s : SparseVector} (h : WF s) (val : ℤ) (p : Nat) :
    WF (s.updateEntry val p) := by
  obtain ⟨h1, h2, h3⟩ := h
  refine ⟨?_, h2, h3⟩
  show (s.values.set p val).length = s.activeIndexes.length
  rw [List.length_set]
  exact h1

/-- Invariant of the `while` loop of `ebeMultiplyToSelf`, relating the
current state `s` and cursor `position` to the untouched operands `a`
(the loop's initial state) and `b`: visited slots hold the non-zero products,
unvisited slots still hold `a`'s original values, and every absent index has
a zero product. -/
def MulInv (a b s : SparseVector) (position : Nat) : Prop :=
  WF s ∧ s.dimension = a.dimension ∧ position ≤ s.nbActive ∧
  (∀ i, i < position →
    s.values.getD i 0 =
      a.getEntry (s.activeIndexes.getD i 0) * b.getEntry (s.activeIndexes.getD i 0) ∧
    s.values.getD i 0 ≠ 0) ∧
  (∀ i, position ≤ i → i < s.nbActive →
    s.values.getD i 0 = a.getEntry (s.activeIndexes.getD i 0)) ∧
  (∀ k, k < a.dimension → s.indexesPosition.getD k (-1) = -1 →
    a.getEntry k * b.getEntry k = 0)

/-- Running the loop from any state satisfying the invariant produces a
well-formed state whose logical value at every index is the product, with
zero products absent. -/
theorem ebeMultiplyToSelfAux_post (a b : SparseVector) :
    ∀ (m : Nat) (s : SparseVector) (position : Nat),
      s.nbActive - position = m → MulInv a b s position →
      WF (SparseVector.ebeMultiplyToSelfAux b s position) ∧
      (∀ k, k < a.dimension →
        (SparseVector.ebeMultiplyToSelfAux b s position).getEntry k =
          a.getEntry k * b.getEntry k ∧
        (a.getEntry k * b.getEntry k = 0 →
          (SparseVector.ebeMultiplyToSelfAux b s position).indexesPosition.getD
            k (-1) = -1)) := by
  intro m
  induction m using Nat.strong_induction_on with
  | _ m ih =>
    intro s position hm hinv
    obtain ⟨hwf, hdim, hpos, hproc, hun, habs⟩ := hinv
    rw [SparseVector.ebeMultiplyToSelfAux.eq_def]
    by_cases hlt : position < s.nbActive
    · rw [dif_pos hlt]
      by_cases hnz : s.values.getD position 0 *
          b.getEntry (s.activeIndexes.getD position 0) ≠ 0
      · rw [if_pos hnz]
        have hnb : (s.updateEntry (s.values.getD position 0 *
            b.getEntry (s.activeIndexes.getD position 0)) position).nbActive =
            s.nbActive := rfl
        refine ih (m - 1) (by omega) _ (position + 1) (by rw [hnb]; omega) ?_
        refine ⟨wf_updateEntry hwf _ _, hdim, by rw [hnb]; omega, ?_, ?_, habs⟩
        · intro i hi
          show (s.values.set position _).getD i 0 = _ ∧ (s.values.set position _).getD i 0 ≠ 0
          by_cases hip : i = position
          · subst hip
            rw [getD_set_self _ _ _ _ (by rw [hwf.length_values]; exact hlt)]
            refine ⟨?_, hnz⟩
            rw [hun i (le_refl _) hlt]
            exact rfl
          · rw [getD_set_ne _ _ _ (fun he => hip he.symm)]
            exact hproc i (by omega)
        · intro i hi1 hi2
          rw [hnb] at hi2
          show (s.values.set position _).getD i 0 = _
          rw [getD_set_ne _ _ _ (by omega)]
          exact hun i (by omega) hi2
      · rw [if_neg hnz]
        have hprod : a.getEntry (s.activeIndexes.getD position 0) *
            b.getEntry (s.activeIndexes.getD position 0) = 0 := by
          rw [← hun position (le_refl _) hlt]
          exact not_not.mp hnz
        have hnb2 := SparseVector.removeEntryAt_nbActive hwf hlt
        refine ih (m - 1) (by omega) _ position (by rw [hnb2]; omega) ?_
        refine ⟨SparseVector.removeEntryAt_wf hwf hlt,
          by rw [SparseVector.removeEntryAt_dimension hwf hlt]; exact hdim,
          by rw [hnb2]; omega, ?_, ?_, ?_⟩
        · intro i hi
          have hilt : i < s.nbActive - 1 := by omega
          rw [SparseVector.removeEntryAt_vals_getD hwf.length_values hlt hilt,
            SparseVector.removeEntryAt_ai_getD hwf.length_values hlt hilt,
            if_neg (by omega : ¬ i = position), if_neg (by omega : ¬ i = position)]
          exact hproc i hi
        · intro i hi1 hi2
          rw [hnb2] at hi2
          rw [SparseVector.removeEntryAt_vals_getD hwf.length_values hlt hi2,
            SparseVector.removeEntryAt_ai_getD hwf.length_values hlt hi2]
          by_cases hip : i = position
          · rw [if_pos hip, if_pos hip]
            exact hun (s.nbActive - 1) (by omega) (by omega)
          · rw [if_neg hip, if_neg hip]
            exact hun i hi1 (by omega)
        · intro j hj hjabs
          by_cases hjk : j = s.activeIndexes.getD position 0
          · rw [hjk]
            exact hprod
          · rw [SparseVector.removeEntryAt_ip_other hwf hlt hjk] at hjabs
            by_cases hjl : j = s.activeIndexes.getD (s.nbActive - 1) 0
            · rw [if_pos hjl] at hjabs
              omega
            · rw [if_neg hjl] at hjabs
              exact habs j hj hjabs
    · rw [dif_neg hlt]
      have hpe : position = s.nbActive := by omega
      refine ⟨hwf, ?_⟩
      intro j hj
      by_cases hact : s.indexesPosition.getD j (-1) = -1
      · refine ⟨?_, fun _ => hact⟩
        rw [SparseVector.getEntry_absent hact]
        exact (habs j hj hact).symm
      · have hjdim : j < s.dimension := by rw [hdim]; exact hj
        obtain ⟨i, hin, hie, hae⟩ := hwf.slot_of_pos hjdim hact
        have hi_proc := hproc i (by omega)
        constructor
        · rw [SparseVector.getEntry_eq_of_pos hie, hi_proc.1, hae]
        · intro hzero
          exfalso
          apply hi_proc.2
          rw [hi_proc.1, hae]
          exact hzero

/-- C6.  For well-formed `a` and any `b` of equal declared dimension,
`a.ebeMultiplyToSelf(b)` gives every index the product of the two old logical
values; indexes whose product is zero end up absent from the active set — no
live entry is skipped, including the one a swap-remove slides into the slot
currently being visited. -/
theorem ebeMultiplyToSelf_spec (a b : SparseVector) (ha : WF a)
    (hdim : a.dimension = b.dimension) :
    ∀ k, k < a.dimension →
      (a.ebeMultiplyToSelf b).getEntry k = a.getEntry k * b.getEntry k ∧
      (a.getEntry k * b.getEntry k = 0 →
        (a.ebeMultiplyToSelf b).indexesPosition.getD k (-1) = -1) := by
  have hinit : MulInv a b a 0 := by
    refine ⟨ha, rfl, Nat.zero_le _, fun i hi => absurd hi (Nat.not_lt_zero i),
      fun i _ hi => (SparseVector.getEntry_slot ha hi).symm, fun k _ hk => ?_⟩
    rw [SparseVector.getEntry_absent hk, zero_mul]
  exact (ebeMultiplyToSelfAux_post a b (a.nbActive - 0) a 0 rfl hinit).2

/-- Witness for C6 at concrete inputs: `{1 ↦ 2, 3 ↦ 4} ⊙ {1 ↦ 1, 2 ↦ 5}`
keeps index 1 with value 2 and removes index 3 (product 0). -/
theorem ebeMultiplyToSelf_spec_witness :
    ((((SparseVector.mkEmpty 5).setEntry 1 2).setEntry 3 4).ebeMultiplyToSelf
        (((SparseVector.mkEmpty 5).setEntry 1 1).setEntry 2 5)).getEntry 3 =
      (((SparseVector.mkEmpty 5).setEntry 1 2).setEntry 3 4).getEntry 3 *
        (((SparseVector.mkEmpty 5).setEntry 1 1).setEntry 2 5).getEntry 3 :=
  (ebeMultiplyToSelf_spec (((SparseVector.mkEmpty 5).setEntry 1 2).setEntry 3 4)
    (((SparseVector.mkEmpty 5).setEntry 1 1).setEntry 2 5)
    (by decide) (by decide) 3 (by decide)).1

end RLLib

